import Mathlib

/-!
Verification of the RAG core of this repository: retrieval-time context
assembly (`getContext`), the recursive text splitter used at ingestion
time, the embedding retry policy, chunk deduplication and the batched
upsert accounting.

Texts are modelled as `List Char` (one element per UTF-16 unit of the
source's strings; no claim here depends on the encoding of exotic code
points).  Scores and embedding values are modelled as rationals.  Network
calls are modelled by explicit outcome functions: the pure logic around
them is transcribed from the source.
-/

namespace Rag

/-- A text, one element per character of the source's strings. -/
abbrev Str := List Char

/-- Whitespace recognised by the source's `trim()` calls (the usual ASCII
whitespace characters). -/
def isJsSpace (c : Char) : Bool :=
  c == ' ' || c == '\t' || c == '\n' || c == '\r' || c == '\x0b' || c == '\x0c'

/-- Model of `s.trim()`: drop leading and trailing whitespace. -/
def jsTrim (s : Str) : Str :=
  ((s.dropWhile isJsSpace).reverse.dropWhile isJsSpace).reverse

/-- Metadata of a match or chunk: an open key/value mapping in the source
(`[key: string]: any`).  Values are modelled as texts, the shape this
repository's ingestion writes into every text-bearing field; the source's
`typeof v === 'string'` guards in the fallback probes skip its non-text
fields. -/
abbrev Metadata := List (Str × Str)

/-- A similarity match as returned by the vector index
(`{ id, score?, metadata? }` in `context.ts` and `pinecone.ts`). -/
structure Match where
  id : Str
  score : Option ℚ := none
  metadata : Option Metadata := none
deriving DecidableEq, Repr

/-- The score filter of `getContext`:
`matches.filter((m) => m.score && m.score > minScore)`.
`m.score` is truthy exactly when it is present and nonzero. -/
def scoreFilter (ms : List Match) (minScore : ℚ) : List Match :=
  ms.filter (fun m =>
    match m.score with
    | none => false
    | some s => decide (s ≠ 0) && decide (minScore < s))

/-- The metadata keys probed in order by `getContext` when extracting text:
`chunk`, `content`, `text`, `body`, `message`, `description`,
`pageContent`, `value`. -/
def probeKeys : List Str :=
  [ ['c','h','u','n','k'],
    ['c','o','n','t','e','n','t'],
    ['t','e','x','t'],
    ['b','o','d','y'],
    ['m','e','s','s','a','g','e'],
    ['d','e','s','c','r','i','p','t','i','o','n'],
    ['p','a','g','e','C','o','n','t','e','n','t'],
    ['v','a','l','u','e'] ]

/-- First value bound to key `k` in the metadata mapping. -/
def lookupMeta (md : Metadata) (k : Str) : Option Str :=
  (md.find? (fun kv => kv.1 == k)).map (fun kv => kv.2)

/-- Text extraction of `getContext` for one match:
the `metadata.chunk || metadata.content || ... || (find first non-empty
string value) || ''` chain, then the `contentFields` fallback that takes
the first value longer than 10 characters when the chain produced nothing
and the metadata is non-empty. -/
def extractText (md : Metadata) : Str :=
  let chain : Option Str :=
    probeKeys.findSome? (fun k =>
      (lookupMeta md k).bind (fun v => if v = [] then none else some v))
  let text0 : Str :=
    match chain with
    | some v => v
    | none =>
        match (md.map (fun kv => kv.2)).find?
            (fun v => decide (v ≠ []) && decide (0 < (jsTrim v).length)) with
        | some v => v
        | none => []
  if text0 = [] ∧ md ≠ [] then
    match md.find? (fun kv => decide (10 < kv.2.length)) with
    | some kv => kv.2
    | none => text0
  else text0

/-- The surviving document texts of `getContext`: extract text per
qualifying match, then `.filter((text) => text && text.trim().length > 0)`. -/
def contextDocs (qualifying : List Match) : List Str :=
  (qualifying.map (fun m => extractText (m.metadata.getD []))).filter
    (fun t => decide (t ≠ []) && decide (0 < (jsTrim t).length))

/-- The final context of `getContext`:
`docs.join('\n').substring(0, maxTokens)`. -/
def contextString (qualifying : List Match) (maxTokens : Nat) : Str :=
  (List.intercalate ['\n'] (contextDocs qualifying)).take maxTokens

/-- Result of `getContext`: a context text, or the raw qualifying matches
when `getOnlyText` is `false` (the source's `Promise<string | MatchResult[]>`). -/
inductive ContextResult where
  | text (s : Str)
  | found (ms : List Match)
deriving DecidableEq, Repr

/-- The pure core of `getContext` after the index returned `ms`: score
filter, then either the raw qualifying matches (`if (!getOnlyText) return
qualifyingDocs;`) or the joined and truncated context text. -/
def getContextPure (ms : List Match) (maxTokens : Nat) (minScore : ℚ)
    (getOnlyText : Bool) : ContextResult :=
  if !getOnlyText then ContextResult.found (scoreFilter ms minScore)
  else ContextResult.text (contextString (scoreFilter ms minScore) maxTokens)

/-- Outcome of one attempt of the context fetch inside the chat route:
either a context text, or a failure classified by the route's
`isConnectionError` test. -/
inductive FetchOutcome where
  | ok (s : Str)
  | err (connection : Bool)

/-- The route's `getContextWithRetry`: retry up to 3 times for connection
errors and once for other errors, then re-throw. `att n` is the outcome of
the `n`-th call to `getContext`. -/
def getContextWithRetry (att : Nat → FetchOutcome) (retryCount : Nat) :
    Except Bool Str :=
  match att retryCount with
  | .ok s => .ok s
  | .err conn =>
      if h : retryCount < (if conn then 3 else 1) then
        getContextWithRetry att (retryCount + 1)
      else .error conn
termination_by 4 - retryCount
decreasing_by split at h <;> omega

/-- The chat route's context computation: `context = await
getContextWithRetry()` with the surrounding `catch` that logs and sets
`context = ''`. -/
def routeContext (att : Nat → FetchOutcome) : Str :=
  match getContextWithRetry att 0 with
  | .ok s => s
  | .error _ => []

/-- Outcome of one call to the embedding provider for a single input:
the extracted `response.data[0]?.embedding` (an absent or empty one is
modelled as `success []`, which the source rejects), or a thrown error
whose `status` field may be absent. -/
inductive EmbOutcome where
  | success (v : List ℚ)
  | failure (status : Option Int)

/-- The retry predicate of `getEmbeddings`:
`e.status === 429 || e.status >= 500` (an absent status satisfies
neither). -/
def isRetryable (st : Option Int) : Bool :=
  match st with
  | some s => decide (s = 429) || decide (500 ≤ s)
  | none => false

/-- `getEmbeddings` of `embeddings.ts`: reject a missing API key or
blank input, call the provider, reject an absent or empty embedding; on
any thrown error retry once (`retryCount < 1`) when the status is 429 or
5xx, otherwise re-throw.  `att n` is the outcome of the `n`-th provider
call.  The dimension check at 1536 only logs a warning and keeps the
vector. -/
def getEmbeddingsM (apiKeyOk : Bool) (input : Str) (att : Nat → EmbOutcome)
    (retryCount : Nat) : Except (Option Int) (List ℚ) :=
  let body : Except (Option Int) (List ℚ) :=
    if !apiKeyOk then .error none
    else if (jsTrim input).length = 0 then .error none
    else
      match att retryCount with
      | .success v => if v = [] then .error none else .ok v
      | .failure st => .error st
  match body with
  | .ok v => .ok v
  | .error st =>
      if h : retryCount < 1 ∧ isRetryable st = true then
        getEmbeddingsM apiKeyOk input att (retryCount + 1)
      else .error st
termination_by 2 - retryCount
decreasing_by omega

/-- Outcome of one call to the embedding provider for a whole batch
during ingestion: the extracted `response.data.map(item => item.embedding)`,
or a thrown error. -/
inductive BatchOutcome where
  | success (vs : List (List ℚ))
  | failure (status : Option Int)

/-- The embedding loop of `processFiles`: process the batches in order;
on success check every returned vector against the 1536-dimension budget
(a mismatch throws, with no status), on a thrown error log and re-throw —
there is no retry in this loop.  `att k` is the outcome for the `k`-th
batch. -/
def processEmbedBatches (att : Nat → BatchOutcome) :
    Nat → List (List Str) → Except (Option Int) (List (List ℚ))
  | _, [] => .ok []
  | k, _batch :: rest =>
      match att k with
      | .success vs =>
          if vs.all (fun v => v.length == 1536) then
            match processEmbedBatches att (k + 1) rest with
            | .ok es => .ok (vs ++ es)
            | .error e => .error e
          else .error none
      | .failure st => .error st

/-- The dedup signature of `processFiles`:
`chunk.trim().toLowerCase().substring(0, 100)`. -/
def normalizeSig (c : Str) : Str :=
  ((jsTrim c).map Char.toLower).take 100

/-- The combination-and-dedup loop of `processFiles`: keep a chunk when
its signature is unseen and its trimmed length is at least 50, recording
the signature; otherwise drop it. -/
def dedupGo : List Str → List Str → List Str
  | [], _ => []
  | c :: rest, seen =>
      if normalizeSig c ∉ seen ∧ 50 ≤ (jsTrim c).length then
        c :: dedupGo rest (normalizeSig c :: seen)
      else dedupGo rest seen

/-- Dedup over the concatenated output of the three splitting
strategies, starting from an empty `seenTexts` set. -/
def dedupChunks (chunks : List Str) : List Str :=
  dedupGo chunks []

/-- A record upserted into the vector index:
`{ id, values, metadata }`. -/
structure IndexRecord where
  id : Str
  values : List ℚ
  metadata : Metadata
deriving DecidableEq, Repr

/-- The upload loop of `processFiles`: each batch is paired with whether
its upsert succeeded; a success adds the batch size to
`successfulUploads`, a failure adds it to `failedUploads`, and the loop
continues either way. -/
def upsertBatchesGo : List (List IndexRecord × Bool) → Nat → Nat → Nat × Nat
  | [], s, f => (s, f)
  | (b, ok) :: rest, s, f =>
      if ok then upsertBatchesGo rest (s + b.length) f
      else upsertBatchesGo rest s (f + b.length)

/-- Final `(successfulUploads, failedUploads)` pair reported by
`processFiles`. -/
def upsertBatches (batches : List (List IndexRecord × Bool)) : Nat × Nat :=
  upsertBatchesGo batches 0 0

/-- Does `sep` occur at the very start of `text`? -/
def matchesAt : Str → Str → Bool
  | [], _ => true
  | _ :: _, [] => false
  | s :: ss, c :: cs => s == c && matchesAt ss cs

/-- Worker for `jsSplit`: scan left to right, cutting at each
non-overlapping occurrence of `sep`.  One unit of fuel is spent per step;
`text.length + 1` units always suffice for a non-empty separator. -/
def jsSplitGo (sep : Str) : Nat → Str → Str → List Str
  | 0, text, acc => [acc.reverse ++ text]
  | fuel + 1, text, acc =>
      match text with
      | [] => [acc.reverse]
      | c :: rest =>
          if matchesAt sep (c :: rest) then
            acc.reverse :: jsSplitGo sep fuel (List.drop sep.length (c :: rest)) []
          else jsSplitGo sep fuel rest (c :: acc)

/-- JavaScript `text.split(sep)` for a non-empty separator: adjacent,
leading and trailing occurrences produce empty pieces.  (The splitter
never reaches this with an empty separator: `separator ? ... : [text]`.) -/
def jsSplit (sep text : Str) : List Str :=
  if sep = [] then [text] else jsSplitGo sep (text.length + 1) text []

/-- The fallback of `splitText`: character windows
`text.substring(i, i + chunkSize)` at stride `chunkSize - chunkOverlap`.
Fuel bounds the iterations; `text.length + 1` units suffice whenever the
stride is positive (with a zero stride the source loops forever). -/
def fallbackGo (cs stride : Nat) (text : Str) : Nat → Nat → List Str
  | 0, _ => []
  | fuel + 1, i =>
      if i < text.length then
        ((text.drop i).take cs) :: fallbackGo cs stride text fuel (i + stride)
      else []

/-- `splitText`'s character-window fallback, entered when no separator
produces more than one piece. -/
def fallbackWindows (cs ov : Nat) (text : Str) : List Str :=
  fallbackGo cs (cs - ov) text (text.length + 1) 0

/-- The greedy packing loop of `splitText` over the pieces of one
separator: accumulate pieces into `cur` while the joined text stays
within `cs`; on overflow flush `cur`, and recurse (`recur`, the full
splitter) into a piece that itself exceeds `cs`, keeping all but the last
sub-chunk and continuing from the last one
(`subSplits[subSplits.length - 1] || split.substring(0, chunkSize)`).
The separator is re-attached before every piece except the last
(`i < splits.length - 1 ? separator : ''`). -/
def packLoop (recur : Str → List Str) (cs : Nat) (sep : Str) :
    List Str → Str → List Str → List Str
  | [], cur, chunks => if cur = [] then chunks else chunks ++ [cur]
  | split :: rest, cur, chunks =>
      let sepText := if rest = [] then [] else sep
      let potential := cur ++ (if cur = [] then [] else sepText) ++ split
      if potential.length ≤ cs then packLoop recur cs sep rest potential chunks
      else
        let chunks1 := if cur = [] then chunks else chunks ++ [cur]
        if cs < split.length then
          let sub := recur split
          let cur2 :=
            match sub.getLast? with
            | some l => if l = [] then split.take cs else l
            | none => split.take cs
          packLoop recur cs sep rest cur2 (chunks1 ++ sub.dropLast)
        else packLoop recur cs sep rest split chunks1

/-- The separator loop of `splitText`: return `[text]` as soon as the
text fits in `cs`, take the first separator yielding more than one piece
and pack (flagged `true`), and fall back to character windows when no
separator splits (flagged `false`). -/
def goSeps (recur : Str → List Str) (cs ov : Nat) (text : Str) :
    List Str → List Str × Bool
  | [] => (fallbackWindows cs ov text, false)
  | sep :: restSeps =>
      if text.length ≤ cs then ([text], false)
      else
        let splits := if sep = [] then [text] else jsSplit sep text
        if 1 < splits.length then (packLoop recur cs sep splits [] [], true)
        else goSeps recur cs ov text restSeps

/-- The overlap rewrite of `splitText` (lines 148-159): keep chunk 0 and
prepend to every later chunk the last `ov` characters
(`prevChunk.substring(Math.max(0, prevChunk.length - chunkOverlap))`) of
its predecessor. -/
def addOverlap (ov : Nat) (chunks : List Str) : List Str :=
  match chunks with
  | [] => []
  | c0 :: rest =>
      c0 :: List.zipWith (fun prev cur => prev.drop (prev.length - ov) ++ cur)
        (c0 :: rest) rest

/-- The guarded overlap rewrite:
`if (chunks.length > 1 && this.chunkOverlap > 0)`. -/
def applyOverlapStep (ov : Nat) (chunks : List Str) : List Str :=
  if 1 < chunks.length ∧ 0 < ov then addOverlap ov chunks else chunks

/-- Fuelled `RecursiveCharacterTextSplitter.splitText`, returning the
chunk list before the top-level overlap rewrite together with a flag for
whether the separator-packing branch was taken.  The recursive call
inside the packing loop is the full splitter, overlap rewrite included —
exactly as `this.splitText(split)` in the source. -/
def splitTextFuel : Nat → Nat → Nat → List Str → Str → List Str × Bool
  | 0, _, _, _, _ => ([], false)
  | fuel + 1, cs, ov, seps, text =>
      goSeps (fun t =>
          let r := splitTextFuel fuel cs ov seps t
          if r.2 then applyOverlapStep ov r.1 else r.1)
        cs ov text seps

/-- `RecursiveCharacterTextSplitter.splitText`: the separator pass, with
the overlap rewrite applied when the packing branch produced the chunks.
The fuel `text.length + 1` dominates the recursion depth, since every
recursive call is on a strictly shorter text. -/
def splitText (cs ov : Nat) (seps : List Str) (text : Str) : List Str :=
  if (splitTextFuel (text.length + 1) cs ov seps text).2 then
    applyOverlapStep ov (splitTextFuel (text.length + 1) cs ov seps text).1
  else (splitTextFuel (text.length + 1) cs ov seps text).1

/-- The chunk sequence of `splitText` just before its top-level overlap
rewrite (the `chunks` array at line 146). -/
def splitTextCoarse (cs ov : Nat) (seps : List Str) (text : Str) : List Str :=
  (splitTextFuel (text.length + 1) cs ov seps text).1

/-- Whether `splitText` took the separator-packing branch (as opposed to
the single-chunk return or the character-window fallback). -/
def splitTextPacked (cs ov : Nat) (seps : List Str) (text : Str) : Bool :=
  (splitTextFuel (text.length + 1) cs ov seps text).2

/-- Modelled from the spec: the splitter as §4.1 step 5 describes it,
with the overlap rewrite "applied only once, to the sequence as finally
split, not recursively at every split level" — the recursion inside the
packing loop returns plain sub-chunks with no rewrite of their own. -/
def splitTextCoreFuel : Nat → Nat → Nat → List Str → Str → List Str × Bool
  | 0, _, _, _, _ => ([], false)
  | fuel + 1, cs, ov, seps, text =>
      goSeps (fun t => (splitTextCoreFuel fuel cs ov seps t).1) cs ov text seps

/-- Modelled from the spec: `splitText` with the overlap rewrite applied
exactly once, to the finally split sequence. -/
def splitTextOverlapOnce (cs ov : Nat) (seps : List Str) (text : Str) :
    List Str :=
  if (splitTextCoreFuel (text.length + 1) cs ov seps text).2 then
    applyOverlapStep ov (splitTextCoreFuel (text.length + 1) cs ov seps text).1
  else (splitTextCoreFuel (text.length + 1) cs ov seps text).1

/-! ## Theorems -/

/-- C1, counterexample: the claim says the filter keeps every match whose
score is defined and strictly greater than `minScore`; but a match with
score exactly 0 is defined and exceeds `minScore = -1`, yet `getContext`'s
filter drops it, because `m.score && ...` tests the score for truthiness
first. -/
theorem scoreFilter_drops_defined_zero_score :
    scoreFilter [⟨['z'], some 0, none⟩] (-1) = [] ∧
      (⟨['z'], some 0, none⟩ : Match).score = some 0 ∧ ((-1 : ℚ) < 0) :=
  ⟨by decide, rfl, by norm_num⟩

/-- C1, amended: `getContext`'s score filter keeps exactly the matches
whose score is defined, nonzero and strictly greater than `minScore`; in
particular, with `minScore = 0.9` and scores `[0.95, 0.5, 0.91]` exactly
the first and third matches are kept. -/
theorem scoreFilter_keeps_iff :
    (∀ (ms : List Match) (q : ℚ) (m : Match),
        m ∈ scoreFilter ms q ↔
          m ∈ ms ∧ ∃ s, m.score = some s ∧ s ≠ 0 ∧ q < s) ∧
      scoreFilter
          [⟨['m','1'], some (mkRat 95 100), none⟩, ⟨['m','2'], some (mkRat 1 2), none⟩,
            ⟨['m','3'], some (mkRat 91 100), none⟩] (mkRat 9 10)
        = [⟨['m','1'], some (mkRat 95 100), none⟩, ⟨['m','3'], some (mkRat 91 100), none⟩] := by
  constructor
  · intro ms q m
    unfold scoreFilter
    rw [List.mem_filter]
    constructor
    · rintro ⟨hm, hp⟩
      refine ⟨hm, ?_⟩
      cases h : m.score with
      | none => rw [h] at hp; simp at hp
      | some s =>
          rw [h] at hp
          simp only [Bool.and_eq_true, decide_eq_true_eq] at hp
          exact ⟨s, rfl, hp.1, hp.2⟩
    · rintro ⟨hm, s, hs, hne, hlt⟩
      refine ⟨hm, ?_⟩
      rw [hs]
      simp [hne, hlt]
  · decide

/-- C8: a match whose score is exactly 0 is never kept by `getContext`'s
score filter, for every `minScore` — including negative ones that a
strict greater-than comparison alone would admit. -/
theorem scoreFilter_zero_never_kept (ms : List Match) (q : ℚ) (m : Match)
    (h : m.score = some 0) : m ∉ scoreFilter ms q := by
  intro hmem
  unfold scoreFilter at hmem
  rw [List.mem_filter] at hmem
  have hp := hmem.2
  rw [h] at hp
  simp at hp

/-- C8, witness: the zero-score match is dropped even at `minScore = -1`. -/
theorem scoreFilter_zero_never_kept_witness :
    (⟨['z','w'], some 0, none⟩ : Match)
      ∉ scoreFilter [⟨['z','w'], some 0, none⟩] (-1) :=
  scoreFilter_zero_never_kept _ _ _ rfl

/-- C10: with `getOnlyText = false`, `getContext` returns the
score-filtered match list itself, with no text extraction, joining or
truncation; with `getOnlyText = true` (the default) it returns the
joined context text, which never exceeds `maxTokens` characters. -/
theorem getContextPure_raw_matches (ms : List Match) (mt : Nat) (q : ℚ) :
    getContextPure ms mt q false = ContextResult.found (scoreFilter ms q) ∧
      getContextPure ms mt q true
        = ContextResult.text (contextString (scoreFilter ms q) mt) ∧
      (contextString (scoreFilter ms q) mt).length ≤ mt := by
  refine ⟨rfl, rfl, ?_⟩
  unfold contextString
  exact List.length_take_le mt (List.intercalate ['\n'] (contextDocs (scoreFilter ms q)))

/-- Helper for C2: when every attempt fails, the bounded retry loop of
the chat route ends in an error after at most four attempts. -/
theorem getContextWithRetry_all_fail (att : Nat → FetchOutcome)
    (hfail : ∀ n s, att n ≠ FetchOutcome.ok s) :
    ∀ fuel rc, 4 - rc ≤ fuel → ∃ c, getContextWithRetry att rc = .error c := by
  intro fuel
  induction fuel with
  | zero =>
      intro rc hle
      rw [getContextWithRetry]
      cases hA : att rc with
      | ok s => exact absurd hA (hfail rc s)
      | err conn =>
          have hno : ¬ rc < (if conn then 3 else 1) := by split <;> omega
          simp only [hA]
          rw [dif_neg hno]
          exact ⟨conn, rfl⟩
  | succ fuel ih =>
      intro rc hle
      rw [getContextWithRetry]
      cases hA : att rc with
      | ok s => exact absurd hA (hfail rc s)
      | err conn =>
          simp only [hA]
          by_cases hc : rc < (if conn then 3 else 1)
          · rw [dif_pos hc]
            exact ih (rc + 1) (by omega)
          · rw [dif_neg hc]
            exact ⟨conn, rfl⟩

/-- C2: when the context fetch fails on every attempt, the chat route's
retry-and-catch wrapper yields the empty context rather than an error;
and when no match qualifies, `getContext` returns the empty text, not an
error. -/
theorem retrieval_degrades_to_empty_context :
    (∀ att : Nat → FetchOutcome,
        (∀ n s, att n ≠ FetchOutcome.ok s) → routeContext att = []) ∧
      ∀ (ms : List Match) (mt : Nat) (q : ℚ),
        scoreFilter ms q = [] →
          getContextPure ms mt q true = ContextResult.text [] := by
  constructor
  · intro att hfail
    unfold routeContext
    obtain ⟨c, hc⟩ := getContextWithRetry_all_fail att hfail 4 0 (by omega)
    rw [hc]
  · intro ms mt q h
    unfold getContextPure contextString contextDocs
    rw [h]
    simp
    exact Or.inr rfl

/-- C2, witness: an always-failing fetch yields the empty context, and an
empty match list yields the empty text. -/
theorem retrieval_degrades_to_empty_context_witness :
    routeContext (fun _ => FetchOutcome.err true) = [] ∧
      getContextPure [] 6000 0 true = ContextResult.text [] :=
  ⟨retrieval_degrades_to_empty_context.1 _ (fun _ _ h => FetchOutcome.noConfusion h),
   retrieval_degrades_to_empty_context.2 [] 6000 0 rfl⟩

/-- Helper: element access under `List.zipWith`. -/
theorem zipWith_getD (f : Str → Str → Str) :
    ∀ (l₁ l₂ : List Str) (j : Nat), j < l₁.length → j < l₂.length →
      (List.zipWith f l₁ l₂).getD j [] = f (l₁.getD j []) (l₂.getD j []) := by
  intro l₁
  induction l₁ with
  | nil => intro l₂ j h1 _; exact absurd h1 (by simp)
  | cons a l ih =>
      intro l₂ j h1 h2
      cases l₂ with
      | nil => exact absurd h2 (by simp)
      | cons b l' =>
          cases j with
          | zero => rfl
          | succ j =>
              simp only [List.zipWith_cons_cons, List.getD_cons_succ]
              exact ih l' j (by simpa using h1) (by simpa using h2)

/-- The overlap rewrite preserves the number of chunks. -/
theorem addOverlap_length (ov : Nat) (c : List Str) :
    (addOverlap ov c).length = c.length := by
  cases c with
  | nil => rfl
  | cons c0 rest =>
      simp only [addOverlap, List.length_cons, List.length_zipWith]
      omega

/-- Chunk `i ≥ 1` after the overlap rewrite is the previous pre-rewrite
chunk's last `ov` characters prepended to pre-rewrite chunk `i`. -/
theorem addOverlap_getD (ov : Nat) (c : List Str) (i : Nat) (h1 : 1 ≤ i)
    (h2 : i < c.length) :
    (addOverlap ov c).getD i []
      = ((c.getD (i - 1) []).drop ((c.getD (i - 1) []).length - ov))
        ++ c.getD i [] := by
  cases c with
  | nil => simp at h2
  | cons c0 rest =>
      cases i with
      | zero => omega
      | succ j =>
          simp only [addOverlap, List.getD_cons_succ, Nat.succ_sub_one]
          rw [zipWith_getD _ _ _ j (by simp at h2 ⊢; omega) (by simp at h2 ⊢; omega)]

/-- C4: whenever `splitText` takes the separator-packing branch and the
coarse pass yields more than one chunk with a positive overlap, the
output has the same number of chunks, chunk 0 is the pre-overlap chunk 0
unmodified, and every later chunk `i` is the last `chunkOverlap`
characters of pre-overlap chunk `i - 1` prepended to pre-overlap chunk
`i`. -/
theorem splitText_overlap_rewrite (cs ov : Nat) (seps : List Str) (text : Str)
    (hp : splitTextPacked cs ov seps text = true)
    (hl : 1 < (splitTextCoarse cs ov seps text).length)
    (ho : 0 < ov) :
    (splitText cs ov seps text).length
        = (splitTextCoarse cs ov seps text).length ∧
      (splitText cs ov seps text).getD 0 []
        = (splitTextCoarse cs ov seps text).getD 0 [] ∧
      ∀ i, 1 ≤ i → i < (splitTextCoarse cs ov seps text).length →
        (splitText cs ov seps text).getD i []
          = (((splitTextCoarse cs ov seps text).getD (i - 1) []).drop
              (((splitTextCoarse cs ov seps text).getD (i - 1) []).length - ov))
            ++ (splitTextCoarse cs ov seps text).getD i [] := by
  have hs : splitText cs ov seps text
      = addOverlap ov (splitTextCoarse cs ov seps text) := by
    unfold splitTextPacked at hp
    unfold splitTextCoarse at hl
    unfold splitText
    rw [if_pos hp]
    unfold applyOverlapStep
    rw [if_pos (And.intro hl ho)]
    rfl
  rw [hs]
  refine ⟨addOverlap_length ov _, ?_, ?_⟩
  · cases hcc : splitTextCoarse cs ov seps text with
    | nil => rw [hcc] at hl; simp at hl
    | cons c0 rest => rfl
  · intro i h1 h2
    exact addOverlap_getD ov _ i h1 h2

/-- C4, witness: on `"aa\nbb cc dd"` with `chunkSize 5`, `overlap 2` the
packing branch is taken, the coarse pass yields three chunks, and the
output's chunk 2 carries the rewrite of the coarse chunks 1 and 2. -/
theorem splitText_overlap_rewrite_witness :
    (splitText 5 2 [['\n'], [' '], []]
          ['a','a','\n','b','b',' ','c','c',' ','d','d']).getD 2 []
      = (((splitTextCoarse 5 2 [['\n'], [' '], []]
              ['a','a','\n','b','b',' ','c','c',' ','d','d']).getD 1 []).drop
            (((splitTextCoarse 5 2 [['\n'], [' '], []]
              ['a','a','\n','b','b',' ','c','c',' ','d','d']).getD 1 []).length - 2))
          ++ (splitTextCoarse 5 2 [['\n'], [' '], []]
              ['a','a','\n','b','b',' ','c','c',' ','d','d']).getD 2 [] :=
  (splitText_overlap_rewrite 5 2 [['\n'], [' '], []]
      ['a','a','\n','b','b',' ','c','c',' ','d','d']
      (by decide) (by decide) (by decide)).2.2 2 (by decide) (by decide)

/-- C3, counterexample: on `"aa\nbb cc dd"` with `chunkSize 5`,
`overlap 2` and separators `["\n", " ", ""]`, the splitter's output
differs from the apply-the-rewrite-once semantics the claim describes:
the recursive call on the oversized piece `"bb cc dd"` already applied
the overlap rewrite, and the top level applied it again. -/
theorem splitText_ne_overlap_once :
    splitText 5 2 [['\n'], [' '], []]
        ['a','a','\n','b','b',' ','c','c',' ','d','d']
      ≠ splitTextOverlapOnce 5 2 [['\n'], [' '], []]
          ['a','a','\n','b','b',' ','c','c',' ','d','d'] := by
  decide

/-- C3, amended: the overlap rewrite runs at every recursion level whose
separator pass produced the chunks, not only once on the final sequence.
On `"aa\nbb cc dd"` (`chunkSize 5`, `overlap 2`): the recursive call on
`"bb cc dd"` already returns `["bb cc", "ccdd"]` with `"cc"` prepended,
the coarse top-level sequence is `["aa", "bb cc", "ccdd"]`, and the
top-level rewrite prepends `"cc"` a second time, giving the final chunk
`"ccccdd"` — overlap text introduced at two levels — where the
apply-once semantics gives `"ccdd"`. -/
theorem splitText_overlap_applied_per_level :
    splitText 5 2 [['\n'], [' '], []]
        ['a','a','\n','b','b',' ','c','c',' ','d','d']
      = [['a','a'], ['a','a','b','b',' ','c','c'],
          ['c','c','c','c','d','d']] ∧
    splitText 5 2 [['\n'], [' '], []] ['b','b',' ','c','c',' ','d','d']
      = [['b','b',' ','c','c'], ['c','c','d','d']] ∧
    splitTextCoarse 5 2 [['\n'], [' '], []]
        ['a','a','\n','b','b',' ','c','c',' ','d','d']
      = [['a','a'], ['b','b',' ','c','c'], ['c','c','d','d']] ∧
    splitTextOverlapOnce 5 2 [['\n'], [' '], []]
        ['a','a','\n','b','b',' ','c','c',' ','d','d']
      = [['a','a'], ['a','a','b','b',' ','c','c'], ['c','c','d','d']] :=
  ⟨by decide, by decide, by decide, by decide⟩

/-- C5, counterexample: a 429 response fails the whole batch-embedding
loop of `processFiles` immediately — no second call is made for the
batch, even though the single-item `getEmbeddings` succeeds after the
same first outcome by retrying once. -/
theorem batch_embedding_does_not_retry :
    processEmbedBatches
        (fun k => if k = 0 then BatchOutcome.failure (some 429)
          else BatchOutcome.success [[1]])
        0 [[['t']]]
      = Except.error (some 429) ∧
    getEmbeddingsM true ['t']
        (fun n => if n = 0 then EmbOutcome.failure (some 429)
          else EmbOutcome.success [1])
        0
      = Except.ok [1] := by
  constructor
  · rfl
  · rw [getEmbeddingsM]
    simp [isRetryable, jsTrim, isJsSpace]
    rw [getEmbeddingsM]
    simp [jsTrim, isJsSpace]

/-- C5, amended: the single-item embedding call retries exactly once on a
429/5xx error — the first outcome decides alone unless it is a retryable
failure, in which case the second outcome decides alone, with no third
attempt — and propagates every other error immediately; the batch
embedding loop of ingestion performs no retry at all: a failed batch call
propagates its error immediately, whatever its status. -/
theorem embedding_retry_policy :
    (∀ (input : Str) (att : Nat → EmbOutcome),
        (jsTrim input).length ≠ 0 →
        (∀ v, att 0 = EmbOutcome.success v → v ≠ [] →
            getEmbeddingsM true input att 0 = Except.ok v) ∧
        (∀ st, att 0 = EmbOutcome.failure st → isRetryable st = false →
            getEmbeddingsM true input att 0 = Except.error st) ∧
        (∀ st st', att 0 = EmbOutcome.failure st → isRetryable st = true →
            att 1 = EmbOutcome.failure st' →
            getEmbeddingsM true input att 0 = Except.error st') ∧
        (∀ st v, att 0 = EmbOutcome.failure st → isRetryable st = true →
            att 1 = EmbOutcome.success v → v ≠ [] →
            getEmbeddingsM true input att 0 = Except.ok v)) ∧
      ∀ (att : Nat → BatchOutcome) (k : Nat) (b : List Str)
          (rest : List (List Str)) (st : Option Int),
        att k = BatchOutcome.failure st →
          processEmbedBatches att k (b :: rest) = Except.error st := by
  constructor
  · intro input att hni
    refine ⟨?_, ?_, ?_, ?_⟩
    · intro v h0 hv
      rw [getEmbeddingsM]
      simp [h0, hni, hv]
    · intro st h0 hr
      rw [getEmbeddingsM]
      simp [h0, hni, hr]
    · intro st st' h0 hr h1
      rw [getEmbeddingsM]
      simp [h0, hni, hr]
      rw [getEmbeddingsM]
      simp [h1, hni]
    · intro st v h0 hr h1 hv
      rw [getEmbeddingsM]
      simp [h0, hni, hr]
      rw [getEmbeddingsM]
      simp [h1, hni, hv]
  · intro att k b rest st h
    simp [processEmbedBatches, h]

/-- C5, amended, witness: a retryable first failure followed by a second
failure yields the second error with no third attempt; a failed upload of
the only batch fails the batch loop with that error. -/
theorem embedding_retry_policy_witness :
    getEmbeddingsM true ['q']
        (fun n => if n = 0 then EmbOutcome.failure (some 429)
          else EmbOutcome.failure (some 503)) 0
      = Except.error (some 503) ∧
    processEmbedBatches (fun _ => BatchOutcome.failure (some 500)) 0 [[['q']]]
      = Except.error (some 500) :=
  ⟨(embedding_retry_policy.1 ['q'] _ (by decide)).2.2.1 (some 429) (some 503)
      rfl (by decide) rfl,
   embedding_retry_policy.2 _ 0 [['q']] [] (some 500) rfl⟩

/-- C9: a successful single-item embedding whose length differs from 1536
is returned as-is by `getEmbeddings` — no failure and no retry; the
dimension check only logs a warning. -/
theorem getEmbeddings_dimension_passthrough (input : Str)
    (att : Nat → EmbOutcome) (v : List ℚ) (hni : (jsTrim input).length ≠ 0)
    (h0 : att 0 = EmbOutcome.success v) (hv : v ≠ [])
    (_hd : v.length ≠ 1536) :
    getEmbeddingsM true input att 0 = Except.ok v := by
  rw [getEmbeddingsM]
  simp [h0, hni, hv]

/-- C9, witness: a 3-dimensional embedding is passed through unchanged. -/
theorem getEmbeddings_dimension_passthrough_witness :
    getEmbeddingsM true ['q'] (fun _ => EmbOutcome.success [1, 2, 3]) 0
      = Except.ok [1, 2, 3] :=
  getEmbeddings_dimension_passthrough ['q'] _ [1, 2, 3] (by decide) rfl
    (by decide) (by decide)

/-- Helper for C6: invariants of the dedup loop for an arbitrary set of
already-seen signatures. -/
theorem dedupGo_props :
    ∀ (chunks seen : List Str),
      (∀ c ∈ dedupGo chunks seen,
          50 ≤ (jsTrim c).length ∧ normalizeSig c ∉ seen) ∧
      ((dedupGo chunks seen).map normalizeSig).Nodup ∧
      (dedupGo chunks seen).Sublist chunks ∧
      (∀ c ∈ chunks, 50 ≤ (jsTrim c).length → normalizeSig c ∉ seen →
          ∃ c' ∈ dedupGo chunks seen, normalizeSig c' = normalizeSig c) ∧
      (∀ c ∈ dedupGo chunks seen, ∃ pre post,
          chunks = pre ++ c :: post ∧
          ∀ c2 ∈ pre, normalizeSig c2 = normalizeSig c →
            (jsTrim c2).length < 50 ∨ normalizeSig c2 ∈ seen) := by
  intro chunks
  induction chunks with
  | nil =>
      intro seen
      refine ⟨?_, ?_, ?_, ?_, ?_⟩ <;> simp [dedupGo]
  | cons c rest ih =>
      intro seen
      by_cases hkeep : normalizeSig c ∉ seen ∧ 50 ≤ (jsTrim c).length
      · have hgo : dedupGo (c :: rest) seen
            = c :: dedupGo rest (normalizeSig c :: seen) := by
          simp only [dedupGo]
          rw [if_pos hkeep]
        obtain ⟨ha, hb, hc, hd, he⟩ := ih (normalizeSig c :: seen)
        refine ⟨?_, ?_, ?_, ?_, ?_⟩
        · rw [hgo]
          intro x hx
          rcases List.mem_cons.1 hx with rfl | hx'
          · exact ⟨hkeep.2, hkeep.1⟩
          · obtain ⟨h1, h2⟩ := ha x hx'
            exact ⟨h1, fun hmem => h2 (List.mem_cons_of_mem _ hmem)⟩
        · rw [hgo]
          simp only [List.map_cons, List.nodup_cons]
          refine ⟨?_, hb⟩
          intro hmem
          rw [List.mem_map] at hmem
          obtain ⟨x, hx, hsig⟩ := hmem
          exact (ha x hx).2 (by rw [hsig]; exact List.mem_cons_self _ _)
        · rw [hgo]
          exact List.Sublist.cons₂ c hc
        · intro x hx hlen hns
          rw [hgo]
          rcases List.mem_cons.1 hx with rfl | hx'
          · exact ⟨x, List.mem_cons_self _ _, rfl⟩
          · by_cases hsx : normalizeSig x = normalizeSig c
            · exact ⟨c, List.mem_cons_self _ _, hsx.symm⟩
            · obtain ⟨c', hc', hs'⟩ := hd x hx' hlen (by
                intro hmem
                rcases List.mem_cons.1 hmem with h | h
                exacts [hsx h, hns h])
              exact ⟨c', List.mem_cons_of_mem _ hc', hs'⟩
        · intro x hx
          rw [hgo] at hx
          rcases List.mem_cons.1 hx with rfl | hx'
          · exact ⟨[], rest, rfl, by intro c2 hc2; simp at hc2⟩
          · obtain ⟨pre, post, hsplit, hpre⟩ := he x hx'
            refine ⟨c :: pre, post, by rw [hsplit]; simp, ?_⟩
            intro c2 hc2 hs2
            rcases List.mem_cons.1 hc2 with rfl | hc2'
            · exact absurd (by rw [← hs2]; exact List.mem_cons_self _ _)
                ((ha x hx').2)
            · rcases hpre c2 hc2' hs2 with h | h
              · exact Or.inl h
              · rcases List.mem_cons.1 h with h' | h'
                · exact absurd (by rw [← hs2, h']; exact List.mem_cons_self _ _)
                    ((ha x hx').2)
                · exact Or.inr h'
      · have hgo : dedupGo (c :: rest) seen = dedupGo rest seen := by
          simp only [dedupGo]
          rw [if_neg hkeep]
        have hdrop : normalizeSig c ∈ seen ∨ (jsTrim c).length < 50 := by
          by_cases h : normalizeSig c ∈ seen
          · exact Or.inl h
          · refine Or.inr ?_
            by_contra hlen
            exact hkeep ⟨h, by omega⟩
        obtain ⟨ha, hb, hc, hd, he⟩ := ih seen
        refine ⟨?_, ?_, ?_, ?_, ?_⟩
        · rw [hgo]; exact ha
        · rw [hgo]; exact hb
        · rw [hgo]; exact hc.cons c
        · intro x hx hlen hns
          rw [hgo]
          rcases List.mem_cons.1 hx with rfl | hx'
          · exact absurd ⟨hns, hlen⟩ hkeep
          · exact hd x hx' hlen hns
        · intro x hx
          rw [hgo] at hx
          obtain ⟨pre, post, hsplit, hpre⟩ := he x hx
          refine ⟨c :: pre, post, by rw [hsplit]; simp, ?_⟩
          intro c2 hc2 hs2
          rcases List.mem_cons.1 hc2 with rfl | hc2'
          · rcases hdrop with h | h
            exacts [Or.inr h, Or.inl h]
          · exact hpre c2 hc2' hs2

/-- C6: dedup keeps only chunks of trimmed length at least 50; the kept
chunks have pairwise distinct normalized signatures; the output is a
subsequence of the input; every qualifying input signature is
represented; and every kept chunk is the first qualifying occurrence of
its signature — every same-signature chunk before it was under the
length minimum. -/
theorem dedup_chunk_invariants (chunks : List Str) :
    (∀ c ∈ dedupChunks chunks, 50 ≤ (jsTrim c).length) ∧
      ((dedupChunks chunks).map normalizeSig).Nodup ∧
      (dedupChunks chunks).Sublist chunks ∧
      (∀ c ∈ chunks, 50 ≤ (jsTrim c).length →
          ∃ c' ∈ dedupChunks chunks, normalizeSig c' = normalizeSig c) ∧
      (∀ c ∈ dedupChunks chunks, ∃ pre post,
          chunks = pre ++ c :: post ∧
          ∀ c2 ∈ pre, normalizeSig c2 = normalizeSig c →
            (jsTrim c2).length < 50) := by
  obtain ⟨ha, hb, hc, hd, he⟩ := dedupGo_props chunks []
  refine ⟨fun c h => (ha c h).1, hb, hc, ?_, ?_⟩
  · intro c hmem hlen
    exact hd c hmem hlen (by simp)
  · intro c hmem
    obtain ⟨pre, post, hsplit, hpre⟩ := he c hmem
    refine ⟨pre, post, hsplit, ?_⟩
    intro c2 h2 hs
    rcases hpre c2 h2 hs with h | h
    · exact h
    · simp at h

/-- C6, witness: a 70-character chunk survives dedup and carries its own
signature. -/
theorem dedup_chunk_invariants_witness :
    ∃ c' ∈ dedupChunks [List.replicate 70 'a'],
      normalizeSig c' = normalizeSig (List.replicate 70 'a') :=
  (dedup_chunk_invariants [List.replicate 70 'a']).2.2.2.1
    (List.replicate 70 'a') (List.mem_singleton.2 rfl) (by decide)

/-- Helper for C7: closed form of the upload loop's two counters. -/
theorem upsertBatchesGo_eq :
    ∀ (l : List (List IndexRecord × Bool)) (s f : Nat),
      upsertBatchesGo l s f
        = (s + (l.map (fun p => if p.2 then p.1.length else 0)).sum,
           f + (l.map (fun p => if p.2 then 0 else p.1.length)).sum) := by
  intro l
  induction l with
  | nil => intro s f; simp [upsertBatchesGo]
  | cons p rest ih =>
      intro s f
      obtain ⟨b, ok⟩ := p
      cases ok with
      | true =>
          simp [upsertBatchesGo, ih, Prod.ext_iff]
          omega
      | false =>
          simp [upsertBatchesGo, ih, Prod.ext_iff]
          omega

/-- Helper for C7: the two counters partition the total record count. -/
theorem upsert_sum_split :
    ∀ l : List (List IndexRecord × Bool),
      (l.map (fun p => if p.2 then p.1.length else 0)).sum
          + (l.map (fun p => if p.2 then 0 else p.1.length)).sum
        = (l.map (fun p => p.1.length)).sum := by
  intro l
  induction l with
  | nil => rfl
  | cons p rest ih =>
      obtain ⟨b, ok⟩ := p
      cases ok <;> simp [ih] <;> omega

/-- C7: the upload loop counts a failing batch by its size but keeps
going — the final counters are the sums over succeeded and failed batches
respectively, they partition the total record count, and the counters of
a run decompose over any split of the batch list, so every batch after a
failure still contributes. -/
theorem upsert_partial_failure_accounting
    (batches : List (List IndexRecord × Bool)) :
    (upsertBatches batches).1
        = (batches.map (fun p => if p.2 then p.1.length else 0)).sum ∧
      (upsertBatches batches).2
        = (batches.map (fun p => if p.2 then 0 else p.1.length)).sum ∧
      (upsertBatches batches).1 + (upsertBatches batches).2
        = (batches.map (fun p => p.1.length)).sum ∧
      ∀ pre post, batches = pre ++ post →
        (upsertBatches batches).1
            = (upsertBatches pre).1 + (upsertBatches post).1 ∧
          (upsertBatches batches).2
            = (upsertBatches pre).2 + (upsertBatches post).2 := by
  have key : ∀ l : List (List IndexRecord × Bool),
      upsertBatches l
        = ((l.map (fun p => if p.2 then p.1.length else 0)).sum,
           (l.map (fun p => if p.2 then 0 else p.1.length)).sum) := by
    intro l
    rw [upsertBatches, upsertBatchesGo_eq]
    simp
  refine ⟨by rw [key], by rw [key], ?_, ?_⟩
  · simp only [key]
    exact upsert_sum_split batches
  · intro pre post heq
    subst heq
    simp [key, List.map_append, List.sum_append]

/-- C7, witness: with a failing first batch of two records and a
succeeding second batch of one record, both counters decompose over the
split, so the second batch is still counted after the first failed. -/
theorem upsert_partial_failure_accounting_witness :
    (upsertBatches [([⟨['r','1'], [], []⟩, ⟨['r','2'], [], []⟩], false),
          ([⟨['r','3'], [], []⟩], true)]).1
        = (upsertBatches [([⟨['r','1'], [], []⟩, ⟨['r','2'], [], []⟩],
              false)]).1
          + (upsertBatches [([⟨['r','3'], [], []⟩], true)]).1 ∧
      (upsertBatches [([⟨['r','1'], [], []⟩, ⟨['r','2'], [], []⟩], false),
          ([⟨['r','3'], [], []⟩], true)]).2
        = (upsertBatches [([⟨['r','1'], [], []⟩, ⟨['r','2'], [], []⟩],
              false)]).2
          + (upsertBatches [([⟨['r','3'], [], []⟩], true)]).2 :=
  (upsert_partial_failure_accounting _).2.2.2
    [([⟨['r','1'], [], []⟩, ⟨['r','2'], [], []⟩], false)]
    [([⟨['r','3'], [], []⟩], true)] rfl

end Rag
